import Mathlib

/-!
Verification of the nocix.net scraper (src/scraper.py), table variant.
The Python code is shallowly embedded: HTML elements are modelled by the
list of text fragments that BeautifulSoup's get_text(separator, strip)
would yield, and each regular expression of the source is embedded as an
executable matcher on lists of characters with Python re.search semantics
(leftmost position wins, greedy quantifiers with the backtracking the
concrete pattern allows).
-/

/-- Python whitespace class, as used by str.strip and the regex \s. -/
def pyIsSpace (c : Char) : Bool :=
  c = ' ' || c = '\t' || c = '\n' || c = '\r' || c = '\x0b' || c = '\x0c'

/-- Replace every maximal run of the character c by a single c, as
re.sub(c+, c) does: a character equal to c is dropped when the next
character is also c, so the last character of each run is kept. -/
def collapseRuns (c : Char) : List Char → List Char
  | [] => []
  | [a] => [a]
  | a :: b :: rest =>
    if a = c ∧ b = c then collapseRuns c (b :: rest)
    else a :: collapseRuns c (b :: rest)

/-- Drop a maximal run of characters satisfying p from the end of the list. -/
def dropTrailWhile (p : Char → Bool) (l : List Char) : List Char :=
  (l.reverse.dropWhile p).reverse

/-- Python str.strip(): remove leading and trailing whitespace. -/
def pyStripL (l : List Char) : List Char :=
  dropTrailWhile pyIsSpace (l.dropWhile pyIsSpace)

/-- Split on every newline character, as Python str.split(chr(10)). -/
def splitLines : List Char → List (List Char)
  | [] => [[]]
  | '\n' :: rest => [] :: splitLines rest
  | c :: rest =>
    match splitLines rest with
    | [] => [[c]]
    | g :: gs => (c :: g) :: gs

/-- Join chunks with a separator, as Python str.join. -/
def intercalateL (sep : List Char) : List (List Char) → List Char
  | [] => []
  | [x] => x
  | x :: y :: rest => x ++ sep ++ intercalateL sep (y :: rest)

/-- Lowercase every character (ASCII, as the source only handles ASCII). -/
def lowerL (l : List Char) : List Char := l.map Char.toLower

/-- List-prefix test written out (Python startswith on character lists). -/
def startsWithL : List Char → List Char → Bool
  | [], _ => true
  | _ :: _, [] => false
  | a :: as, b :: bs => a = b && startsWithL as bs

/-- Substring test, as the Python `in` operator on strings. -/
def containsSub (needle : List Char) : List Char → Bool
  | [] => startsWithL needle []
  | a :: rest => startsWithL needle (a :: rest) || containsSub needle rest

/-- Suffix test on strings, used to state the "<value> unmetered" shape. -/
def endsWithS (suf s : String) : Bool :=
  startsWithL suf.toList.reverse s.toList.reverse

/-- BeautifulSoup element.get_text(separator = newline, strip = True):
each text fragment is stripped, empty fragments are dropped, and the rest
are joined with a newline. -/
def getTextL (frags : List String) : List Char :=
  intercalateL ['\n'] (((frags.map (fun f => pyStripL f.toList))).filter (fun l => !l.isEmpty))

/-- extract_text_clean of the source: get_text as above, then collapse
newline runs, then collapse space runs; a missing element yields "". -/
def extract_text_clean (element : Option (List String)) : String :=
  match element with
  | some frags => (collapseRuns ' ' (collapseRuns '\n' (getTextL frags))).asString
  | none => ""

/-- The string transformation performed by the Text Normalizer on one text
fragment: strip surrounding whitespace, collapse newline runs, collapse
space runs (the strip comes from get_text(strip = True), the collapses
from the two re.sub calls). -/
def normL (l : List Char) : List Char :=
  collapseRuns ' ' (collapseRuns '\n' (pyStripL l))

/-- String-level Text Normalizer transformation. -/
def normalizeText (s : String) : String := (normL s.toList).asString

/-- Generic re.search driver: try the matcher at every position from the
left, first position that matches wins. -/
def reSearch {α : Type} (f : List Char → Option α) : List Char → Option α
  | [] => f []
  | c :: rest =>
    match f (c :: rest) with
    | some m => some m
    | none => reSearch f rest

/-- Consume at least one digit (regex \d+, greedy), returning the digits
and the rest. -/
def eatDigits1 (l : List Char) : Option (List Char × List Char) :=
  if l.takeWhile Char.isDigit = [] then none
  else some (l.takeWhile Char.isDigit, l.dropWhile Char.isDigit)

/-- Consume at least one whitespace character (regex \s+, greedy). -/
def eatSpaces1 (l : List Char) : Option (List Char × List Char) :=
  if l.takeWhile pyIsSpace = [] then none
  else some (l.takeWhile pyIsSpace, l.dropWhile pyIsSpace)

/-- Consume a literal case-insensitively (the literal is given lowercase);
returns the consumed original characters and the rest. -/
def eatCI : List Char → List Char → Option (List Char × List Char)
  | [], l => some ([], l)
  | _ :: _, [] => none
  | p :: ps, c :: cs =>
    if c.toLower = p then
      match eatCI ps cs with
      | some (m, r) => some (c :: m, r)
      | none => none
    else none

/-- Result of one regex match: the matched span (group 0) and, when the
pattern has a capture group, its content (group 1); both keep the
original character case. -/
structure ReMatch where
  g0 : List Char
  g1 : Option (List Char)
deriving DecidableEq

/-- Bandwidth pattern (a) of the source at one position:
digits, M or G, "bit", whitespace, "unmetered" (ignoring case). -/
def bwA_at (l : List Char) : Option ReMatch :=
  match eatDigits1 l with
  | none => none
  | some (ds, r1) =>
    match r1 with
    | [] => none
    | c :: r2 =>
      if c.toLower = 'm' || c.toLower = 'g' then
        match eatCI "bit".toList r2 with
        | none => none
        | some (bit, r3) =>
          match eatSpaces1 r3 with
          | none => none
          | some (sp, r4) =>
            match eatCI "unmetered".toList r4 with
            | none => none
            | some (um, _) => some ⟨ds ++ c :: bit ++ sp ++ um, some (ds ++ c :: bit)⟩
      else none

/-- Bandwidth pattern (b) of the source at one position:
digits, optional whitespace, "TB", whitespace, then optionally
"Monthly Transfer" or "Bandwidth" (ignoring case). -/
def bwB_at (l : List Char) : Option ReMatch :=
  match eatDigits1 l with
  | none => none
  | some (ds, r1) =>
    match eatCI "tb".toList (r1.dropWhile pyIsSpace) with
    | none => none
    | some (tb, r3) =>
      match eatSpaces1 r3 with
      | none => none
      | some (sp1, r4) =>
        let tail :=
          match eatCI "monthly transfer".toList r4 with
          | some (m, _) => m
          | none =>
            match eatCI "bandwidth".toList r4 with
            | some (m, _) => m
            | none => []
        some ⟨ds ++ r1.takeWhile pyIsSpace ++ tb ++ sp1 ++ tail, some ds⟩

/-- Bandwidth pattern (c) of the source at one position:
"Unmetered", whitespace, then "Bandwidth" or "Transfer" (ignoring case);
the pattern has no capture group. -/
def bwC_at (l : List Char) : Option ReMatch :=
  match eatCI "unmetered".toList l with
  | none => none
  | some (um, r1) =>
    match eatSpaces1 r1 with
    | none => none
    | some (sp, r2) =>
      match eatCI "bandwidth".toList r2 with
      | some (b, _) => some ⟨um ++ sp ++ b, none⟩
      | none =>
        match eatCI "transfer".toList r2 with
        | some (t, _) => some ⟨um ++ sp ++ t, none⟩
        | none => none

/-- Test used by the source as: lowercase "unmetered" occurs in text.lower(). -/
def containsUnmetered (text : String) : Bool :=
  containsSub "unmetered".toList (lowerL text.toList)

/-- How the source renders a bandwidth match: when "unmetered" occurs
anywhere in the lowered text, group 1 (or the literal "Unmetered" when the
pattern had no group) followed by " unmetered"; otherwise group 0. -/
def bwRender (text : String) (m : ReMatch) : String :=
  if containsUnmetered text then
    (match m.g1 with
     | some g => g.asString
     | none => "Unmetered") ++ " unmetered"
  else m.g0.asString

/-- Bandwidth extraction of parse_included_column: the three patterns are
tried in order and the first that matches anywhere in the text wins. -/
def parse_bandwidth (text : String) : String :=
  match reSearch bwA_at text.toList with
  | some m => bwRender text m
  | none =>
    match reSearch bwB_at text.toList with
    | some m => bwRender text m
    | none =>
      match reSearch bwC_at text.toList with
      | some m => bwRender text m
      | none => ""

/-- Port speed pattern at one position: digits, M or G, "bit", whitespace,
"Port" (ignoring case); returns group 1. -/
def port_at (l : List Char) : Option (List Char) :=
  match eatDigits1 l with
  | none => none
  | some (ds, r1) =>
    match r1 with
    | [] => none
    | c :: r2 =>
      if c.toLower = 'm' || c.toLower = 'g' then
        match eatCI "bit".toList r2 with
        | none => none
        | some (bit, r3) =>
          match eatSpaces1 r3 with
          | none => none
          | some (_, r4) =>
            match eatCI "port".toList r4 with
            | none => none
            | some _ => some (ds ++ c :: bit)
      else none

/-- IPv4 pattern at one position: digits, whitespace, "usable", whitespace,
"IPv4" (ignoring case); returns the digit group. -/
def ipv4_at (l : List Char) : Option (List Char) :=
  match eatDigits1 l with
  | none => none
  | some (ds, r1) =>
    match eatSpaces1 r1 with
    | none => none
    | some (_, r2) =>
      match eatCI "usable".toList r2 with
      | none => none
      | some (_, r3) =>
        match eatSpaces1 r3 with
        | none => none
        | some (_, r4) =>
          match eatCI "ipv4".toList r4 with
          | none => none
          | some _ => some ds

/-- IPv6 pattern at one position: a slash, digits, whitespace, "IPv6"
(ignoring case); returns the digit group. -/
def ipv6_at (l : List Char) : Option (List Char) :=
  match l with
  | '/' :: r =>
    match eatDigits1 r with
    | none => none
    | some (ds, r1) =>
      match eatSpaces1 r1 with
      | none => none
      | some (_, r2) =>
        match eatCI "ipv6".toList r2 with
        | none => none
        | some _ => some ds
  | _ => none

/-- Feature phrase of the form word, whitespace, word (ignoring case), as
in the Instant Deployment and FREE Setup checks. -/
def phrase2_at (w1 w2 : List Char) (l : List Char) : Option Unit :=
  match eatCI w1 l with
  | none => none
  | some (_, r1) =>
    match eatSpaces1 r1 with
    | none => none
    | some (_, r2) =>
      match eatCI w2 r2 with
      | none => none
      | some _ => some ()

/-- The fixed priority-ordered list of known city names of the source. -/
def locations : List String :=
  ["Dallas", "Charlotte", "Lenoir", "Kansas", "Phoenix", "Denver", "Los Angeles", "New York"]

/-- Case-insensitive substring test loc.lower() in text.lower(). -/
def occursIn (loc : String) (text : String) : Bool :=
  containsSub (lowerL loc.toList) (lowerL text.toList)

/-- The location loop of the source: first list entry whose lowercase form
occurs in the lowered text wins; empty string when none does. -/
def findLocation : List String → String → String
  | [], _ => ""
  | loc :: rest, t => if occursIn loc t then loc else findLocation rest t

/-- Record assembled by parse_included_column. -/
structure IncludedDetails where
  bandwidth : String
  port_speed : String
  ipv4_addresses : String
  ipv6_addresses : String
  instant_deployment : Bool
  free_setup : Bool
  location : String
  additional_features : List String
deriving DecidableEq

/-- parse_included_column of the source: on empty text the default record;
otherwise each field extractor runs independently over the whole text. -/
def parse_included_column (text : String) : IncludedDetails :=
  if text = "" then ⟨"", "", "", "", false, false, "", []⟩
  else
    { bandwidth := parse_bandwidth text
      port_speed :=
        match reSearch port_at text.toList with
        | some g => g.asString
        | none => ""
      ipv4_addresses :=
        match reSearch ipv4_at text.toList with
        | some ds => ds.asString ++ " usable IPv4"
        | none => ""
      ipv6_addresses :=
        match reSearch ipv6_at text.toList with
        | some ds => "/" ++ ds.asString ++ " IPv6 Block"
        | none => ""
      instant_deployment := (reSearch (phrase2_at "instant".toList "deployment".toList) text.toList).isSome
      free_setup := (reSearch (phrase2_at "free".toList "setup".toList) text.toList).isSome
      location := findLocation locations text
      additional_features :=
        (if containsSub "ddos".toList (lowerL text.toList) then ["DDoS Protection"] else []) ++
        (if containsSub "ipmi".toList (lowerL text.toList) then ["IPMI"] else []) ++
        (if containsSub "customizable".toList (lowerL text.toList) then ["Customizable"] else []) }

/-- Optional cents part of the price pattern: a dot followed by exactly
two digits, or nothing. -/
def centsOf (r2 : List Char) : List Char :=
  match r2 with
  | '.' :: x :: y :: _ => if x.isDigit && y.isDigit then ['.', x, y] else []
  | _ => []

/-- Price pattern at one position: a dollar sign, digits, then optionally a
dot with exactly two digits; the trailing optional monthly qualifier of the
source pattern always matches (possibly empty) and affects nothing, so only
group 1 is computed. -/
def price_at : List Char → Option (List Char)
  | '$' :: r =>
    if r.takeWhile Char.isDigit = [] then none
    else some (r.takeWhile Char.isDigit ++ centsOf (r.dropWhile Char.isDigit))
  | _ => none

/-- parse_price of the source: empty text yields ""; otherwise the first
dollar match is normalized to a per-month form. -/
def parse_price (text : String) : String :=
  if text = "" then ""
  else
    match reSearch price_at text.toList with
    | some amt => "$" ++ amt.asString ++ "/month"
    | none => ""

/-- GHz pattern at one position: digits, optional dot with further digits,
optional whitespace, "Ghz" (ignoring case); returns group 1. The only
backtracking point of the source pattern is the optional dot. -/
def ghz_at (l : List Char) : Option (List Char) :=
  match eatDigits1 l with
  | none => none
  | some (ds, r1) =>
    let attempt : List Char → List Char → Option (List Char) := fun acc r =>
      match eatCI "ghz".toList (r.dropWhile pyIsSpace) with
      | some _ => some acc
      | none => none
    match r1 with
    | '.' :: r2 =>
      (match attempt (ds ++ '.' :: r2.takeWhile Char.isDigit) (r2.dropWhile Char.isDigit) with
       | some g => some g
       | none => attempt ds r1)
    | _ => attempt ds r1

/-- Helper for the optional s of "Cores?" followed by \s* and a slash:
maximal whitespace then a literal slash. -/
def coresSlash (r : List Char) : Option (List Char) :=
  match r.dropWhile pyIsSpace with
  | '/' :: r5 => some r5
  | _ => none

/-- Continuation of the combined pattern after the literal "Core": the
optional "s" (with the backtracking the regex allows), optional
whitespace, slash, optional whitespace, digits, whitespace, "thread"
(ignoring case; the trailing optional "s" affects nothing). Returns the
threads digit group. -/
def threadsTail (r3 : List Char) : Option (List Char) :=
  let r6opt :=
    match r3 with
    | s :: rs =>
      if s.toLower = 's' then
        match coresSlash rs with
        | some r => some r
        | none => coresSlash r3
      else coresSlash r3
    | [] => coresSlash r3
  match r6opt with
  | none => none
  | some r6 =>
    match eatDigits1 (r6.dropWhile pyIsSpace) with
    | none => none
    | some (t, r8) =>
      match eatSpaces1 r8 with
      | none => none
      | some (_, r9) =>
        match eatCI "thread".toList r9 with
        | none => none
        | some _ => some t

/-- Combined cores/threads pattern at one position: digits, whitespace,
"Core" with optional "s", optional whitespace, slash, optional whitespace,
digits, whitespace, "thread" (ignoring case). Returns both digit groups. -/
def coresThreads_at (l : List Char) : Option (List Char × List Char) :=
  match eatDigits1 l with
  | none => none
  | some (c, r1) =>
    match eatSpaces1 r1 with
    | none => none
    | some (_, r2) =>
      match eatCI "core".toList r2 with
      | none => none
      | some (_, r3) =>
        match threadsTail r3 with
        | none => none
        | some t => some (c, t)

/-- Fallback cores-only pattern at one position: digits, whitespace, "Core"
(ignoring case; the optional "s" affects nothing). Returns the digit group. -/
def coresOnly_at (l : List Char) : Option (List Char) :=
  match eatDigits1 l with
  | none => none
  | some (c, r1) =>
    match eatSpaces1 r1 with
    | none => none
    | some (_, r2) =>
      match eatCI "core".toList r2 with
      | none => none
      | some _ => some c

/-- Processor sub-record of a Server Record. -/
structure Processor where
  name : String
  speed : String
  cores : String
  threads : String
deriving DecidableEq

/-- The lines of the cleaned processor cell text: split on newlines, strip
each line, keep the non-empty ones. -/
def procLines (ptext : String) : List (List Char) :=
  ((splitLines ptext.toList).map (fun l => pyStripL l)).filter (fun l => !l.isEmpty)

/-- The space-joined full processor text the source runs its regexes over. -/
def procFull (ptext : String) : List Char :=
  intercalateL [' '] (procLines ptext)

/-- Processor parsing of parse_server_row: name is the first non-empty
line; speed, cores and threads come from regexes over the joined text, the
combined cores/threads pattern first and the cores-only pattern as
fallback. -/
def parse_processor (ptext : String) : Processor :=
  if ptext = "" then ⟨"", "", "", ""⟩
  else
    let nm : String :=
      match procLines ptext with
      | [] => ""
      | l :: _ => l.asString
    let spd : String :=
      match reSearch ghz_at (procFull ptext) with
      | some g => g.asString ++ "GHz"
      | none => ""
    match reSearch coresThreads_at (procFull ptext) with
    | some (c, t) => ⟨nm, spd, c.asString, t.asString⟩
    | none =>
      match reSearch coresOnly_at (procFull ptext) with
      | some c => ⟨nm, spd, c.asString, ""⟩
      | none => ⟨nm, spd, "", ""⟩

/-- Server Record of the table variant. -/
structure Server where
  category : String
  processor : Processor
  ram : String
  storage : String
  bandwidth : String
  port_speed : String
  ipv4_addresses : String
  ipv6_addresses : String
  location : String
  price : String
  instant_deployment : Bool
  free_setup : Bool
  additional_features : List String
deriving DecidableEq

/-- A table cell: its text fragments, and the fragments of the first
nested link or button when one exists (row.find of a or button). -/
structure Cell where
  frags : List String
  button : Option (List String)
deriving DecidableEq

/-- A table row: its td cells, and whether it contains a th cell. -/
structure Row where
  cells : List Cell
  hasTh : Bool
deriving DecidableEq

/-- Cleaned text of a cell. -/
def extractCellText (c : Cell) : String := extract_text_clean (some c.frags)

/-- Default cell used for positional access; never selected in practice
because every access is guarded by a length test as in the source. -/
def defCell : Cell := ⟨[], none⟩

/-- Price of cell 5: prefer the nested link or button text over the cell
text, as the source does. -/
def parse_cell_price (pc : Cell) : String :=
  match pc.button with
  | some bfrags => parse_price (extract_text_clean (some bfrags))
  | none => parse_price (extractCellText pc)

/-- Field assembly of parse_server_row: positional column mapping, each
access guarded by the cell-count tests of the source. -/
def buildServer (row : Row) (category : String) : Server :=
  let cells := row.cells
  let proc :=
    if 1 < cells.length then parse_processor (extractCellText (cells.getD 1 defCell))
    else ⟨"", "", "", ""⟩
  let ram := if 2 < cells.length then extractCellText (cells.getD 2 defCell) else ""
  let storage := if 3 < cells.length then extractCellText (cells.getD 3 defCell) else ""
  let inc :=
    if 4 < cells.length then parse_included_column (extractCellText (cells.getD 4 defCell))
    else ⟨"", "", "", "", false, false, "", []⟩
  let price := if 5 < cells.length then parse_cell_price (cells.getD 5 defCell) else ""
  { category := category
    processor := proc
    ram := ram
    storage := storage
    bandwidth := inc.bandwidth
    port_speed := inc.port_speed
    ipv4_addresses := inc.ipv4_addresses
    ipv6_addresses := inc.ipv6_addresses
    location := inc.location
    price := price
    instant_deployment := inc.instant_deployment
    free_setup := inc.free_setup
    additional_features := inc.additional_features }

/-- parse_server_row of the source: reject rows with fewer than 5 cells or
with a th cell, build the record, and retain it only when processor name,
ram or storage carries a signal. -/
def parse_server_row (row : Row) (category : String) : Option Server :=
  if row.cells.length < 5 ∨ row.hasTh = true then none
  else
    if (buildServer row category).processor.name ≠ "" ∨ (buildServer row category).ram ≠ "" ∨
        (buildServer row category).storage ≠ "" then
      some (buildServer row category)
    else none

/-- A table of the page. -/
structure Table where
  rows : List Row
deriving DecidableEq

/-- A section heading that matched the vendor-name pattern of the source,
with the result of the forward-sibling search for its table. -/
structure Section where
  headerFrags : List String
  table : Option Table
deriving DecidableEq

/-- A page: the headings matching the vendor pattern (with their tables)
and all tables on the page. -/
structure Page where
  sections : List Section
  tables : List Table
deriving DecidableEq

/-- Concatenation of the lists produced for each element. -/
def listFlat {α β : Type} (f : α → List β) : List α → List β
  | [] => []
  | a :: rest => f a ++ listFlat f rest

/-- Records produced by the section-heading pass of extract_server_details:
generic section titles are skipped, and each section's table rows are
parsed with the section-derived category suffix. -/
def sectionRecords (page : Page) (category : String) : List Server :=
  listFlat
    (fun sec =>
      if extract_text_clean (some sec.headerFrags) = "Instant Activation Preconfigured Servers" ∨
          extract_text_clean (some sec.headerFrags) = "Custom Servers" then []
      else
        match sec.table with
        | none => []
        | some t =>
          t.rows.filterMap
            (fun r =>
              parse_server_row r (category ++ " - " ++ extract_text_clean (some sec.headerFrags))))
    page.sections

/-- extract_server_details of the source: the section pass first; when it
yields no record, every table on the page is parsed with the bare
category. -/
def extract_server_details (page : Page) (category : String) : List Server :=
  if sectionRecords page category = [] then
    listFlat (fun t => t.rows.filterMap (fun r => parse_server_row r category)) page.tables
  else sectionRecords page category

/-- No two adjacent characters of the list both equal c. -/
def noRun (c : Char) : List Char → Prop
  | a :: b :: rest => ¬(a = c ∧ b = c) ∧ noRun c (b :: rest)
  | _ => True

/-- A text contains a dollar sign immediately followed by a digit; this is
exactly when the price pattern of the source can match somewhere. -/
def hasDollarAmount : List Char → Bool
  | [] => false
  | _ :: [] => false
  | a :: b :: rest => (a = '$' && b.isDigit) || hasDollarAmount (b :: rest)

/-- A well-formed amount: one or more digits, optionally followed by a dot
and exactly two digits. -/
def isValidAmount (a : List Char) : Bool :=
  !(a.takeWhile Char.isDigit).isEmpty &&
    (match a.dropWhile Char.isDigit with
     | [] => true
     | '.' :: x :: y :: [] => x.isDigit && y.isDigit
     | _ => false)

/-- Concrete five-cell data row used as witness input. -/
def wRowA : Row :=
  ⟨[⟨[], none⟩, ⟨["CPU"], none⟩, ⟨["16GB"], none⟩, ⟨["1TB"], none⟩, ⟨[], none⟩], false⟩

/-- The record the row parser produces for wRowA under category "Cat". -/
def wSrvA : Server :=
  ⟨"Cat", ⟨"CPU", "", "", ""⟩, "16GB", "1TB", "", "", "", "", "", "", false, false, []⟩

/-- Concrete data row whose processor cell carries speed, cores and threads. -/
def wRowB : Row :=
  ⟨[⟨[], none⟩, ⟨["Intel Xeon E-2288G", "3.7Ghz", "8 Cores / 16 threads"], none⟩,
    ⟨["32GB"], none⟩, ⟨["1TB SSD"], none⟩, ⟨[], none⟩], false⟩

/-- The record the row parser produces for wRowB under category "c". -/
def wSrvB : Server :=
  ⟨"c", ⟨"Intel Xeon E-2288G", "3.7GHz", "8", "16"⟩, "32GB", "1TB SSD",
    "", "", "", "", "", "", false, false, []⟩

/-- Concrete page with no vendor-pattern section heading and three tables. -/
def wPage : Page := ⟨[], [⟨[wRowA]⟩, ⟨[wRowA]⟩, ⟨[wRowA]⟩]⟩

/-! Helper lemmas about the text utilities. -/

theorem asString_toList (l : List Char) : (l.asString).toList = l := rfl

theorem head?_collapseRuns (c : Char) : ∀ l : List Char, (collapseRuns c l).head? = l.head?
  | [] => rfl
  | [_] => rfl
  | a :: b :: rest => by
    unfold collapseRuns
    split
    · next h =>
      rw [head?_collapseRuns c (b :: rest)]
      simp [h.1, h.2]
    · simp

theorem noRun_collapseRuns (c : Char) : ∀ l : List Char, noRun c (collapseRuns c l)
  | [] => trivial
  | [a] => by simp [collapseRuns, noRun]
  | a :: b :: rest => by
    unfold collapseRuns
    split
    · exact noRun_collapseRuns c (b :: rest)
    · next h =>
      have ih := noRun_collapseRuns c (b :: rest)
      have hh := head?_collapseRuns c (b :: rest)
      cases hcl : collapseRuns c (b :: rest) with
      | nil => simp [noRun]
      | cons x xs =>
        rw [hcl] at hh ih
        have hxb : x = b := by simpa using hh
        subst hxb
        exact ⟨h, ih⟩

theorem noRun_preserved (c d : Char) : ∀ l : List Char, noRun d l → noRun d (collapseRuns c l)
  | [], _ => trivial
  | [a], _ => by simp [collapseRuns, noRun]
  | a :: b :: rest, h => by
    unfold collapseRuns
    split
    · exact noRun_preserved c d (b :: rest) h.2
    · have ih := noRun_preserved c d (b :: rest) h.2
      have hh := head?_collapseRuns c (b :: rest)
      cases hcl : collapseRuns c (b :: rest) with
      | nil => simp [noRun]
      | cons x xs =>
        rw [hcl] at hh ih
        have hxb : x = b := by simpa using hh
        subst hxb
        exact ⟨h.1, ih⟩

theorem collapseRuns_of_noRun (c : Char) : ∀ l : List Char, noRun c l → collapseRuns c l = l
  | [], _ => rfl
  | [_], _ => rfl
  | a :: b :: rest, h => by
    unfold collapseRuns
    rw [if_neg h.1, collapseRuns_of_noRun c (b :: rest) h.2]

theorem getLast?_cons_cons' (a b : Char) (l : List Char) :
    (a :: b :: l).getLast? = (b :: l).getLast? := by
  simp [List.getLast?]

theorem getLast?_collapseRuns (c : Char) : ∀ l : List Char, (collapseRuns c l).getLast? = l.getLast?
  | [] => rfl
  | [_] => rfl
  | a :: b :: rest => by
    unfold collapseRuns
    split
    · rw [getLast?_collapseRuns c (b :: rest), getLast?_cons_cons']
    · have hh := head?_collapseRuns c (b :: rest)
      cases hcl : collapseRuns c (b :: rest) with
      | nil => rw [hcl] at hh; simp at hh
      | cons x xs =>
        have hg := getLast?_collapseRuns c (b :: rest)
        rw [hcl] at hg
        rw [getLast?_cons_cons', hg, getLast?_cons_cons']

theorem head?_dropWhile_false (p : Char → Bool) :
    ∀ (l : List Char) (c : Char), (l.dropWhile p).head? = some c → p c = false
  | [], c, h => by simp [List.dropWhile] at h
  | a :: rest, c, h => by
    rw [List.dropWhile_cons] at h
    by_cases hp : p a
    · simp [hp] at h
      exact head?_dropWhile_false p rest c (by simpa [List.dropWhile] using h)
    · simp [hp] at h
      subst h
      simpa using hp

theorem dropWhile_eq_self_of_head (p : Char → Bool) (l : List Char)
    (h : ∀ c, l.head? = some c → p c = false) : l.dropWhile p = l := by
  cases l with
  | nil => rfl
  | cons a rest => simp [List.dropWhile_cons, h a rfl]

theorem dropTrailWhile_initial (p : Char → Bool) (l : List Char) : dropTrailWhile p l <+: l := by
  have h1 : l.reverse.dropWhile p <:+ l.reverse := List.dropWhile_suffix p
  have h2 : (l.reverse.dropWhile p).reverse <+: l := by
    rw [← List.reverse_reverse l]
    exact List.reverse_prefix.mpr (by simpa using h1)
  simpa [dropTrailWhile] using h2

theorem head?_eq_of_initial {x y : List Char} (h : x <+: y) (hx : x ≠ []) : x.head? = y.head? := by
  obtain ⟨t, rfl⟩ := h
  cases x with
  | nil => exact absurd rfl hx
  | cons a as => simp

theorem getLast?_dropTrailWhile_false (p : Char → Bool) (l : List Char) (c : Char)
    (h : (dropTrailWhile p l).getLast? = some c) : p c = false := by
  unfold dropTrailWhile at h
  rw [List.getLast?_reverse] at h
  exact head?_dropWhile_false p _ c h

theorem dropTrailWhile_eq_self (p : Char → Bool) (l : List Char)
    (h : ∀ c, l.getLast? = some c → p c = false) : dropTrailWhile p l = l := by
  unfold dropTrailWhile
  rw [dropWhile_eq_self_of_head p l.reverse (fun c hc => h c (by rwa [List.head?_reverse] at hc)),
    List.reverse_reverse]

theorem head?_pyStripL_false (l : List Char) (c : Char)
    (h : (pyStripL l).head? = some c) : pyIsSpace c = false := by
  unfold pyStripL at h
  have hne : dropTrailWhile pyIsSpace (l.dropWhile pyIsSpace) ≠ [] := by
    intro he
    rw [he] at h
    simp at h
  rw [head?_eq_of_initial (dropTrailWhile_initial pyIsSpace _) hne] at h
  exact head?_dropWhile_false pyIsSpace l c h

theorem getLast?_pyStripL_false (l : List Char) (c : Char)
    (h : (pyStripL l).getLast? = some c) : pyIsSpace c = false :=
  getLast?_dropTrailWhile_false pyIsSpace _ c h

theorem pyStripL_eq_self (l : List Char)
    (hh : ∀ c, l.head? = some c → pyIsSpace c = false)
    (hl : ∀ c, l.getLast? = some c → pyIsSpace c = false) : pyStripL l = l := by
  unfold pyStripL
  rw [dropWhile_eq_self_of_head pyIsSpace l hh, dropTrailWhile_eq_self pyIsSpace l hl]

theorem normL_idem (l : List Char) : normL (normL l) = normL l := by
  have hstrip : pyStripL (normL l) = normL l := by
    apply pyStripL_eq_self
    · intro c hc
      unfold normL at hc
      rw [head?_collapseRuns, head?_collapseRuns] at hc
      exact head?_pyStripL_false l c hc
    · intro c hc
      unfold normL at hc
      rw [getLast?_collapseRuns, getLast?_collapseRuns] at hc
      exact getLast?_pyStripL_false l c hc
  have hnl : noRun '\n' (normL l) :=
    noRun_preserved ' ' '\n' _ (noRun_collapseRuns '\n' (pyStripL l))
  have hsp : noRun ' ' (normL l) := noRun_collapseRuns ' ' _
  show collapseRuns ' ' (collapseRuns '\n' (pyStripL (normL l))) = normL l
  rw [hstrip, collapseRuns_of_noRun '\n' _ hnl, collapseRuns_of_noRun ' ' _ hsp]

/-- C8: the Text Normalizer's string transformation (strip surrounding
whitespace, collapse newline runs, collapse space runs) is idempotent, a
missing (none) element yields the empty string, and on a one-fragment
element extract_text_clean computes exactly that transformation. -/
theorem c8_normalizer_idempotent :
    (∀ s : String, normalizeText (normalizeText s) = normalizeText s) ∧
    extract_text_clean none = "" ∧
    (∀ s : String, extract_text_clean (some [s]) = normalizeText s) := by
  refine ⟨fun s => ?_, rfl, fun s => ?_⟩
  · show (normL ((normL s.toList).asString).toList).asString = (normL s.toList).asString
    rw [asString_toList, normL_idem]
  · show (collapseRuns ' ' (collapseRuns '\n' (getTextL [s]))).asString = (normL s.toList).asString
    unfold getTextL normL
    by_cases h : pyStripL s.data = []
    · simp [h, intercalateL]
    · have h2 : (pyStripL s.data).isEmpty = false := by
        cases hl : pyStripL s.data with
        | nil => exact absurd hl h
        | cons a t => rfl
      simp [h2, intercalateL]

/-! Helper lemmas about the row parser and the page extractor. -/

theorem parse_server_row_inv (row : Row) (cat : String) (s : Server)
    (h : parse_server_row row cat = some s) :
    s = buildServer row cat ∧ ¬(row.cells.length < 5 ∨ row.hasTh = true) ∧
      (s.processor.name ≠ "" ∨ s.ram ≠ "" ∨ s.storage ≠ "") := by
  unfold parse_server_row at h
  split at h
  · simp at h
  · next hg =>
    split at h
    · next hc => cases h; exact ⟨rfl, hg, hc⟩
    · simp at h

theorem mem_listFlat {α β : Type} (f : α → List β) (b : β) :
    ∀ l : List α, b ∈ listFlat f l ↔ ∃ a ∈ l, b ∈ f a
  | [] => by simp [listFlat]
  | a :: rest => by simp [listFlat, mem_listFlat f b rest]

theorem mem_extract_server_details (page : Page) (cat : String) (s : Server)
    (h : s ∈ extract_server_details page cat) :
    ∃ row cat2, parse_server_row row cat2 = some s := by
  unfold extract_server_details at h
  split at h
  · rcases (mem_listFlat _ _ _).1 h with ⟨t, _, hs⟩
    rcases List.mem_filterMap.1 hs with ⟨r, _, hpr⟩
    exact ⟨r, cat, hpr⟩
  · unfold sectionRecords at h
    rcases (mem_listFlat _ _ _).1 h with ⟨sec, _, hs⟩
    obtain ⟨hf, tab⟩ := sec
    split at hs
    · simp at hs
    · split at hs
      · simp at hs
      · rcases List.mem_filterMap.1 hs with ⟨r, _, hpr⟩
        exact ⟨r, _, hpr⟩

/-- C1: the table-variant row parser returns a record only when at least
one of processor name, ram, storage is non-empty, and consequently every
record in the Page Extractor's output has at least one of the three
non-empty. -/
theorem c1_retention_gate :
    (∀ row cat s, parse_server_row row cat = some s →
      s.processor.name ≠ "" ∨ s.ram ≠ "" ∨ s.storage ≠ "") ∧
    (∀ page cat s, s ∈ extract_server_details page cat →
      s.processor.name ≠ "" ∨ s.ram ≠ "" ∨ s.storage ≠ "") := by
  constructor
  · intro row cat s h
    exact (parse_server_row_inv row cat s h).2.2
  · intro page cat s h
    rcases mem_extract_server_details page cat s h with ⟨row, cat2, hp⟩
    exact (parse_server_row_inv row cat2 s hp).2.2

theorem c1_retention_gate_witness :
    parse_server_row wRowA "Cat" = some wSrvA ∧
    (wSrvA.processor.name ≠ "" ∨ wSrvA.ram ≠ "" ∨ wSrvA.storage ≠ "") :=
  ⟨by decide, c1_retention_gate.1 wRowA "Cat" wSrvA (by decide)⟩

/-- C2: a row with 4 or fewer cells, or containing a th cell, yields no
record no matter what the cells contain or which category is passed. -/
theorem c2_row_rejection :
    ∀ row cat, row.cells.length ≤ 4 ∨ row.hasTh = true → parse_server_row row cat = none := by
  intro row cat h
  unfold parse_server_row
  rw [if_pos]
  rcases h with h | h
  · exact Or.inl (by omega)
  · exact Or.inr h

theorem c2_row_rejection_witness :
    ((⟨[], false⟩ : Row).cells.length ≤ 4 ∨ (⟨[], false⟩ : Row).hasTh = true) ∧
    parse_server_row ⟨[], false⟩ "x" = none :=
  ⟨Or.inl (by decide), c2_row_rejection ⟨[], false⟩ "x" (Or.inl (by decide))⟩

/-- C3: the included-column extractor group on the given example text
produces exactly the field values stated in the specification. -/
theorem c3_included_example :
    (parse_included_column "10TB Bandwidth, 1Gbit Port, 5 usable IPv4, Instant Deployment, DDoS Protection, Dallas").bandwidth = "10TB Bandwidth" ∧
    (parse_included_column "10TB Bandwidth, 1Gbit Port, 5 usable IPv4, Instant Deployment, DDoS Protection, Dallas").port_speed = "1Gbit" ∧
    (parse_included_column "10TB Bandwidth, 1Gbit Port, 5 usable IPv4, Instant Deployment, DDoS Protection, Dallas").ipv4_addresses = "5 usable IPv4" ∧
    (parse_included_column "10TB Bandwidth, 1Gbit Port, 5 usable IPv4, Instant Deployment, DDoS Protection, Dallas").instant_deployment = true ∧
    (parse_included_column "10TB Bandwidth, 1Gbit Port, 5 usable IPv4, Instant Deployment, DDoS Protection, Dallas").free_setup = false ∧
    (parse_included_column "10TB Bandwidth, 1Gbit Port, 5 usable IPv4, Instant Deployment, DDoS Protection, Dallas").location = "Dallas" ∧
    (parse_included_column "10TB Bandwidth, 1Gbit Port, 5 usable IPv4, Instant Deployment, DDoS Protection, Dallas").additional_features = ["DDoS Protection"] := by
  decide

/-! Helper lemmas about the processor extractors. -/

theorem reSearch_some {α : Type} (f : List Char → Option α) (a : α) :
    ∀ l, reSearch f l = some a → ∃ l2, f l2 = some a
  | [], h => ⟨[], h⟩
  | c :: rest, h => by
    unfold reSearch at h
    split at h
    · next m heq => cases h; exact ⟨c :: rest, heq⟩
    · exact reSearch_some f a rest h

theorem eatDigits1_ne (l ds r : List Char) (h : eatDigits1 l = some (ds, r)) : ds ≠ [] := by
  unfold eatDigits1 at h
  split at h
  · simp at h
  · next hne => cases h; exact hne

theorem coresThreads_at_fst_ne (l c t : List Char) (h : coresThreads_at l = some (c, t)) :
    c ≠ [] := by
  unfold coresThreads_at at h
  split at h
  · simp at h
  · next ds r1 heq =>
    have hds := eatDigits1_ne l ds r1 heq
    split at h
    · simp at h
    · split at h
      · simp at h
      · split at h
        · simp at h
        · simp only [Option.some.injEq, Prod.mk.injEq] at h
          obtain ⟨rfl, -⟩ := h
          exact hds

theorem procFull_empty : procFull "" = [] := rfl

theorem parse_processor_spec (pt : String) :
    (∀ c t, reSearch coresThreads_at (procFull pt) = some (c, t) →
      (parse_processor pt).cores = c.asString ∧ (parse_processor pt).threads = t.asString) ∧
    (reSearch coresThreads_at (procFull pt) = none →
      (∀ c, reSearch coresOnly_at (procFull pt) = some c →
        (parse_processor pt).cores = c.asString ∧ (parse_processor pt).threads = "") ∧
      (reSearch coresOnly_at (procFull pt) = none →
        (parse_processor pt).cores = "" ∧ (parse_processor pt).threads = "")) := by
  by_cases hpt : pt = ""
  · subst hpt
    have hct : reSearch coresThreads_at (procFull "") = none := rfl
    have hco : reSearch coresOnly_at (procFull "") = none := rfl
    refine ⟨fun c t h2 => ?_, fun _ => ⟨fun c h2 => ?_, fun _ => ⟨rfl, rfl⟩⟩⟩
    · rw [hct] at h2; cases h2
    · rw [hco] at h2; cases h2
  · cases hct : reSearch coresThreads_at (procFull pt) with
    | some p =>
      obtain ⟨c0, t0⟩ := p
      refine ⟨fun c t h2 => ?_, fun h2 => ?_⟩
      · have hc : c0 = c ∧ t0 = t := by simpa using h2
        obtain ⟨rfl, rfl⟩ := hc
        constructor <;> simp [parse_processor, hpt, hct]
      · simp at h2
    | none =>
      refine ⟨fun c t h2 => ?_, fun _ => ?_⟩
      · simp at h2
      · cases hco : reSearch coresOnly_at (procFull pt) with
        | some c0 =>
          refine ⟨fun c h2 => ?_, fun h2 => ?_⟩
          · have hc : c0 = c := by simpa using h2
            subst hc
            constructor <;> simp [parse_processor, hpt, hct, hco]
          · simp at h2
        | none =>
          refine ⟨fun c h2 => ?_, fun _ => ?_⟩
          · simp at h2
          · constructor <;> simp [parse_processor, hpt, hct, hco]

theorem buildServer_processor (row : Row) (cat : String) (h1 : 1 < row.cells.length) :
    (buildServer row cat).processor =
      parse_processor (extractCellText (row.cells.getD 1 defCell)) := by
  simp [buildServer, h1]

/-- C7: in every record the row parser produces, cores and threads come
from the combined "N core(s) / M thread(s)" pattern over the joined
processor-cell text when that pattern matches; only when it is absent does
the cores-only fallback fire, and then threads stays empty. -/
theorem c7_cores_threads_priority :
    ∀ row cat s, parse_server_row row cat = some s →
      (∀ c t, reSearch coresThreads_at (procFull (extractCellText (row.cells.getD 1 defCell))) = some (c, t) →
        s.processor.cores = c.asString ∧ s.processor.threads = t.asString) ∧
      (reSearch coresThreads_at (procFull (extractCellText (row.cells.getD 1 defCell))) = none →
        (∀ c, reSearch coresOnly_at (procFull (extractCellText (row.cells.getD 1 defCell))) = some c →
          s.processor.cores = c.asString ∧ s.processor.threads = "") ∧
        (reSearch coresOnly_at (procFull (extractCellText (row.cells.getD 1 defCell))) = none →
          s.processor.cores = "" ∧ s.processor.threads = "")) := by
  intro row cat s h
  obtain ⟨rfl, hg, -⟩ := parse_server_row_inv row cat s h
  have h1 : 1 < row.cells.length := by
    rcases Nat.lt_or_ge row.cells.length 5 with h5 | h5
    · exact absurd (Or.inl h5) hg
    · omega
  rw [buildServer_processor row cat h1]
  exact parse_processor_spec (extractCellText (row.cells.getD 1 defCell))

theorem c7_cores_threads_priority_witness :
    parse_server_row wRowB "c" = some wSrvB ∧
    reSearch coresThreads_at (procFull (extractCellText (wRowB.cells.getD 1 defCell))) =
      some (['8'], ['1', '6']) ∧
    wSrvB.processor.cores = "8" ∧ wSrvB.processor.threads = "16" :=
  ⟨by decide, by decide,
    (c7_cores_threads_priority wRowB "c" wSrvB (by decide)).1 ['8'] ['1', '6'] (by decide)⟩

/-- C10: in every record the row parser produces, a non-empty threads
field forces a non-empty cores field, because only the combined pattern
sets threads and it always sets cores from its first digit group. -/
theorem c10_threads_only_with_cores :
    ∀ row cat s, parse_server_row row cat = some s →
      s.processor.threads ≠ "" → s.processor.cores ≠ "" := by
  intro row cat s h ht
  obtain ⟨rfl, hg, -⟩ := parse_server_row_inv row cat s h
  have h1 : 1 < row.cells.length := by
    rcases Nat.lt_or_ge row.cells.length 5 with h5 | h5
    · exact absurd (Or.inl h5) hg
    · omega
  rw [buildServer_processor row cat h1] at ht ⊢
  cases hct : reSearch coresThreads_at (procFull (extractCellText (row.cells.getD 1 defCell))) with
  | some p =>
    obtain ⟨c0, t0⟩ := p
    obtain ⟨hc, -⟩ := (parse_processor_spec _).1 c0 t0 hct
    obtain ⟨l2, hl2⟩ := reSearch_some coresThreads_at (c0, t0) _ hct
    have hne := coresThreads_at_fst_ne l2 c0 t0 hl2
    rw [hc]
    intro habs
    exact hne (by simpa using congrArg String.data habs)
  | none =>
    cases hco : reSearch coresOnly_at (procFull (extractCellText (row.cells.getD 1 defCell))) with
    | some c0 =>
      obtain ⟨-, hthr⟩ := ((parse_processor_spec _).2 hct).1 c0 hco
      exact absurd hthr ht
    | none =>
      obtain ⟨-, hthr⟩ := ((parse_processor_spec _).2 hct).2 hco
      exact absurd hthr ht

theorem c10_threads_only_with_cores_witness :
    parse_server_row wRowB "c" = some wSrvB ∧
    wSrvB.processor.threads ≠ "" ∧ wSrvB.processor.cores ≠ "" :=
  ⟨by decide, by decide,
    c10_threads_only_with_cores wRowB "c" wSrvB (by decide) (by decide)⟩

/-! Helper lemmas about the location loop. -/

theorem findLocation_empty : ∀ (ls : List String) (t : String),
    (∀ loc ∈ ls, occursIn loc t = false) → findLocation ls t = ""
  | [], _, _ => rfl
  | loc :: rest, t, h => by
    unfold findLocation
    rw [if_neg]
    · exact findLocation_empty rest t (fun l hl => h l (List.mem_cons_of_mem _ hl))
    · simp [h loc (List.mem_cons_self _ _)]

theorem findLocation_found : ∀ (ls : List String) (t : String) (loc : String),
    loc ∈ ls → occursIn loc t = true →
    findLocation ls t ∈ ls ∧ occursIn (findLocation ls t) t = true ∧
      ∀ l2 ∈ ls.takeWhile (fun l => l != findLocation ls t), occursIn l2 t = false
  | loc0 :: rest, t, loc, hmem, hocc => by
    by_cases h0 : occursIn loc0 t = true
    · have hr : findLocation (loc0 :: rest) t = loc0 := by simp [findLocation, h0]
      rw [hr]
      refine ⟨List.mem_cons_self _ _, h0, ?_⟩
      intro l2 hl2
      simp [List.takeWhile_cons] at hl2
    · have hr : findLocation (loc0 :: rest) t = findLocation rest t := by
        simp [findLocation, h0]
      have hmem2 : loc ∈ rest := by
        rcases List.mem_cons.1 hmem with rfl | hm
        · exact absurd hocc h0
        · exact hm
      obtain ⟨ih1, ih2, ih3⟩ := findLocation_found rest t loc hmem2 hocc
      rw [hr]
      refine ⟨List.mem_cons_of_mem _ ih1, ih2, ?_⟩
      have hne : loc0 ≠ findLocation rest t := by
        intro he
        rw [he] at h0
        exact h0 ih2
      intro l2 hl2
      rw [List.takeWhile_cons, if_pos (by simpa using hne)] at hl2
      rcases List.mem_cons.1 hl2 with rfl | hl2b
      · simpa using h0
      · exact ih3 l2 hl2b

/-- C6: the location extractor returns the first city of the fixed
priority-ordered list that occurs case-insensitively in the text (list
order decides, not order of occurrence in the text, as the concrete
"Phoenix, Kansas" input shows), and the empty string when no listed city
occurs; parse_included_column's location field is exactly this loop. -/
theorem c6_location_priority :
    (∀ t loc, loc ∈ locations → occursIn loc t = true →
      findLocation locations t ∈ locations ∧
      occursIn (findLocation locations t) t = true ∧
      ∀ l2 ∈ locations.takeWhile (fun l => l != findLocation locations t),
        occursIn l2 t = false) ∧
    (∀ t, (∀ loc ∈ locations, occursIn loc t = false) → findLocation locations t = "") ∧
    findLocation locations "Phoenix, Kansas" = "Kansas" ∧
    (∀ t, t ≠ "" → (parse_included_column t).location = findLocation locations t) := by
  refine ⟨fun t loc hm ho => findLocation_found locations t loc hm ho,
    fun t h => findLocation_empty locations t h, by decide, fun t ht => ?_⟩
  simp [parse_included_column, ht]

theorem c6_location_priority_witness :
    ("Kansas" ∈ locations ∧ occursIn "Kansas" "Phoenix, Kansas" = true) ∧
    occursIn (findLocation locations "Phoenix, Kansas") "Phoenix, Kansas" = true :=
  ⟨⟨by decide, by decide⟩,
    (c6_location_priority.1 "Phoenix, Kansas" "Kansas" (by decide) (by decide)).2.1⟩

/-! Helper lemmas about the page-level fallback. -/

theorem listFlat_filterMap (f : Row → Option Server) : ∀ ts : List Table,
    listFlat (fun t => t.rows.filterMap f) ts = (listFlat Table.rows ts).filterMap f
  | [] => rfl
  | t :: rest => by
    simp [listFlat, List.filterMap_append, listFlat_filterMap f rest]

theorem length_filterMap_all (f : Row → Option Server) : ∀ l : List Row,
    (∀ r ∈ l, (f r).isSome = true) → (l.filterMap f).length = l.length
  | [], _ => rfl
  | r :: rest, h => by
    have hr := h r (List.mem_cons_self _ _)
    cases hfr : f r with
    | none => rw [hfr] at hr; simp at hr
    | some s =>
      simp [List.filterMap_cons, hfr,
        length_filterMap_all f rest (fun x hx => h x (List.mem_cons_of_mem _ hx))]

/-- C9: when the section-heading pass produces no record, every table on
the page is parsed by the same row parser under the bare category; in
particular a page with no vendor-pattern section heading and three tables
all of whose rows parse successfully yields exactly one record per row. -/
theorem c9_fallback_all_tables :
    (∀ page cat, sectionRecords page cat = [] →
      extract_server_details page cat =
        (listFlat Table.rows page.tables).filterMap (fun r => parse_server_row r cat)) ∧
    (∀ page cat t1 t2 t3, page.sections = [] → page.tables = [t1, t2, t3] →
      (∀ r ∈ t1.rows ++ t2.rows ++ t3.rows, (parse_server_row r cat).isSome = true) →
      extract_server_details page cat =
        (t1.rows ++ t2.rows ++ t3.rows).filterMap (fun r => parse_server_row r cat) ∧
      (extract_server_details page cat).length = (t1.rows ++ t2.rows ++ t3.rows).length) := by
  have main : ∀ page cat, sectionRecords page cat = [] →
      extract_server_details page cat =
        (listFlat Table.rows page.tables).filterMap (fun r => parse_server_row r cat) := by
    intro page cat h
    unfold extract_server_details
    rw [if_pos h]
    exact listFlat_filterMap _ page.tables
  refine ⟨main, fun page cat t1 t2 t3 hsec htab hall => ?_⟩
  have hsr : sectionRecords page cat = [] := by
    unfold sectionRecords
    rw [hsec]
    rfl
  have hflat : listFlat Table.rows page.tables = t1.rows ++ t2.rows ++ t3.rows := by
    rw [htab]
    simp [listFlat, List.append_assoc]
  have h1 := main page cat hsr
  rw [hflat] at h1
  exact ⟨h1, by rw [h1]; exact length_filterMap_all _ _ hall⟩

theorem c9_fallback_all_tables_witness :
    sectionRecords wPage "c" = [] ∧
    extract_server_details wPage "c" =
      (listFlat Table.rows wPage.tables).filterMap (fun r => parse_server_row r "c") ∧
    (extract_server_details wPage "c").length = 3 :=
  ⟨by decide, c9_fallback_all_tables.1 wPage "c" (by decide),
    by rw [(c9_fallback_all_tables.2 wPage "c" ⟨[wRowA]⟩ ⟨[wRowA]⟩ ⟨[wRowA]⟩ (by decide)
        (by decide) (by decide)).1]; decide⟩

/-! Helper lemmas about the price extractor. -/

theorem takeWhile_append_all (p : Char → Bool) : ∀ (ds r : List Char),
    (∀ c ∈ ds, p c = true) → (∀ c, r.head? = some c → p c = false) →
    (ds ++ r).takeWhile p = ds ∧ (ds ++ r).dropWhile p = r
  | [], r, _, hr => by
    cases r with
    | nil => exact ⟨rfl, rfl⟩
    | cons c cs =>
      rw [List.nil_append]
      constructor
      · simp [List.takeWhile_cons, hr c rfl]
      · simp [List.dropWhile_cons, hr c rfl]
  | d :: ds, r, hds, hr => by
    have hd := hds d (List.mem_cons_self _ _)
    have ih := takeWhile_append_all p ds r (fun c hc => hds c (List.mem_cons_of_mem _ hc)) hr
    simp [List.takeWhile_cons, List.dropWhile_cons, hd, ih.1, ih.2]

theorem centsOf_cases (r2 : List Char) :
    centsOf r2 = [] ∨
      ∃ x y, centsOf r2 = ['.', x, y] ∧ x.isDigit = true ∧ y.isDigit = true := by
  unfold centsOf
  split
  · next x y rest =>
    split
    · next hxy =>
      rw [Bool.and_eq_true] at hxy
      exact Or.inr ⟨x, y, rfl, hxy.1, hxy.2⟩
    · exact Or.inl rfl
  · exact Or.inl rfl

theorem price_at_valid (l a : List Char) (h : price_at l = some a) : isValidAmount a = true := by
  unfold price_at at h
  split at h
  · next r =>
    split at h
    · simp at h
    · next hne =>
      have ha : a = r.takeWhile Char.isDigit ++ centsOf (r.dropWhile Char.isDigit) := by
        cases h; rfl
      subst ha
      have hds : ∀ c ∈ r.takeWhile Char.isDigit, Char.isDigit c = true :=
        fun c hc => List.mem_takeWhile_imp hc
      have hie : (r.takeWhile Char.isDigit).isEmpty = false := by
        rcases htw : r.takeWhile Char.isDigit with _ | ⟨d0, ds0⟩
        · exact absurd htw hne
        · rfl
      rcases centsOf_cases (r.dropWhile Char.isDigit) with hc | ⟨x, y, hc, hx, hy⟩
      · rw [hc]
        obtain ⟨h1, h2⟩ :=
          takeWhile_append_all Char.isDigit (r.takeWhile Char.isDigit) [] hds
            (fun c hcc => by simp at hcc)
        unfold isValidAmount
        rw [h1, h2, hie]
        rfl
      · rw [hc]
        obtain ⟨h1, h2⟩ :=
          takeWhile_append_all Char.isDigit (r.takeWhile Char.isDigit) ['.', x, y] hds
            (fun c hcc => by
              simp at hcc
              subst hcc
              rfl)
        unfold isValidAmount
        rw [h1, h2, hie]
        simp [hx, hy]
  · simp at h

theorem reSearch_price_of_hasDollar : ∀ l : List Char, hasDollarAmount l = true →
    ∃ a, reSearch price_at l = some a ∧ isValidAmount a = true
  | [], h => by simp [hasDollarAmount] at h
  | [x], h => by simp [hasDollarAmount] at h
  | a :: b :: rest, h => by
    rw [hasDollarAmount, Bool.or_eq_true] at h
    unfold reSearch
    cases hp : price_at (a :: b :: rest) with
    | some m => exact ⟨m, rfl, price_at_valid _ m hp⟩
    | none =>
      rcases h with h1 | h2
      · rw [Bool.and_eq_true] at h1
        obtain ⟨ha, hb⟩ := h1
        have ha2 : a = '$' := by simpa using ha
        subst ha2
        have : price_at ('$' :: b :: rest) ≠ none := by
          simp [price_at, List.takeWhile_cons, hb]
        exact absurd hp this
      · obtain ⟨a2, hs, hv⟩ := reSearch_price_of_hasDollar (b :: rest) h2
        exact ⟨a2, hs, hv⟩

theorem price_at_single (x : Char) : price_at [x] = none := by
  unfold price_at
  split
  · rename_i r heq
    injection heq with hx hr
    subst hr
    rfl
  · rfl

theorem reSearch_price_none : ∀ l : List Char, hasDollarAmount l = false →
    reSearch price_at l = none
  | [], _ => rfl
  | [x], _ => by
    unfold reSearch
    rw [price_at_single x]
    rfl
  | a :: b :: rest, h => by
    rw [hasDollarAmount, Bool.or_eq_false_iff] at h
    obtain ⟨h1, h2⟩ := h
    have hp : price_at (a :: b :: rest) = none := by
      unfold price_at
      split
      · next r heq =>
        injection heq with ha hr
        subst ha
        subst hr
        have hb : b.isDigit = false := by simpa using h1
        simp [List.takeWhile_cons, hb]
      · rfl
    unfold reSearch
    rw [hp]
    exact reSearch_price_none (b :: rest) h2

/-- C5: whenever the text contains a dollar amount (a dollar sign followed
by digits, with optional two-digit cents; the monthly qualifier of the
pattern is optional and affects nothing), parse_price returns
"$<amount>/month" for a well-formed amount; the stated example holds; and
with no currency pattern, or empty text, the result is the empty string. -/
theorem c5_price_normalization :
    (∀ t : String, hasDollarAmount t.toList = true →
      ∃ a : List Char, isValidAmount a = true ∧
        parse_price t = "$" ++ a.asString ++ "/month") ∧
    (∀ t : String, hasDollarAmount t.toList = false → parse_price t = "") ∧
    parse_price "$149.99/mo" = "$149.99/month" ∧ parse_price "" = "" := by
  refine ⟨fun t ht => ?_, fun t ht => ?_, by decide, rfl⟩
  · obtain ⟨a, hs, hv⟩ := reSearch_price_of_hasDollar t.toList ht
    have hne : t ≠ "" := by
      intro he
      subst he
      simp [hasDollarAmount] at ht
    refine ⟨a, hv, ?_⟩
    rw [parse_price, if_neg hne, hs]
  · by_cases hne : t = ""
    · simp [parse_price, hne]
    · rw [parse_price, if_neg hne, reSearch_price_none t.toList ht]

theorem c5_price_normalization_witness :
    hasDollarAmount "abc".toList = false ∧ parse_price "abc" = "" :=
  ⟨by decide, c5_price_normalization.2.1 "abc" (by decide)⟩

/-! Helper lemmas about the bandwidth extractor. -/

theorem startsWithL_self_append : ∀ l r : List Char, startsWithL l (l ++ r) = true
  | [], _ => rfl
  | a :: as, r => by simp [startsWithL, startsWithL_self_append as r]

theorem endsWithS_append (v u : String) : endsWithS u (v ++ u) = true := by
  unfold endsWithS
  have hl : (v ++ u).toList = v.toList ++ u.toList := String.data_append v u
  rw [hl, List.reverse_append]
  exact startsWithL_self_append _ _

theorem bwRender_ends (t : String) (m : ReMatch) (h : containsUnmetered t = true) :
    endsWithS " unmetered" (bwRender t m) = true := by
  unfold bwRender
  rw [if_pos h]
  cases hg : m.g1 with
  | some g => exact endsWithS_append g.asString " unmetered"
  | none => exact endsWithS_append "Unmetered" " unmetered"

/-- C4 (amended): the three bandwidth patterns are tried in order and the
first that matches determines the result; when at least one pattern
matches and the word "unmetered" occurs anywhere in the lowered text, the
result has the shape "<value> unmetered", even when the match came from
pattern (b). (The unamended claim fails when "unmetered" occurs but no
pattern matches: the result is then the empty string.) -/
theorem c4_bandwidth_priority :
    (∀ t m, reSearch bwA_at t.toList = some m → parse_bandwidth t = bwRender t m) ∧
    (∀ t m, reSearch bwA_at t.toList = none → reSearch bwB_at t.toList = some m →
      parse_bandwidth t = bwRender t m) ∧
    (∀ t m, reSearch bwA_at t.toList = none → reSearch bwB_at t.toList = none →
      reSearch bwC_at t.toList = some m → parse_bandwidth t = bwRender t m) ∧
    (∀ t, reSearch bwA_at t.toList = none → reSearch bwB_at t.toList = none →
      reSearch bwC_at t.toList = none → parse_bandwidth t = "") ∧
    (∀ t, ((reSearch bwA_at t.toList).isSome = true ∨ (reSearch bwB_at t.toList).isSome = true ∨
        (reSearch bwC_at t.toList).isSome = true) → containsUnmetered t = true →
      endsWithS " unmetered" (parse_bandwidth t) = true) := by
  refine ⟨fun t m h1 => ?_, fun t m h1 h2 => ?_, fun t m h1 h2 h3 => ?_,
    fun t h1 h2 h3 => ?_, fun t hm hu => ?_⟩
  · rw [parse_bandwidth, h1]
  · rw [parse_bandwidth, h1, h2]
  · rw [parse_bandwidth, h1, h2, h3]
  · rw [parse_bandwidth, h1, h2, h3]
  · cases h1 : reSearch bwA_at t.toList with
    | some m =>
      rw [parse_bandwidth, h1]
      exact bwRender_ends t m hu
    | none =>
      cases h2 : reSearch bwB_at t.toList with
      | some m =>
        rw [parse_bandwidth, h1, h2]
        exact bwRender_ends t m hu
      | none =>
        cases h3 : reSearch bwC_at t.toList with
        | some m =>
          rw [parse_bandwidth, h1, h2, h3]
          exact bwRender_ends t m hu
        | none =>
          have h1d : reSearch bwA_at t.data = none := h1
          have h2d : reSearch bwB_at t.data = none := h2
          have h3d : reSearch bwC_at t.data = none := h3
          simp [h1d, h2d, h3d] at hm

/-- C4 counterexample to the unamended claim: this text contains the word
"unmetered" yet the extractor returns the empty string, which does not
have the "<value> unmetered" shape. -/
theorem c4_bandwidth_counterexample :
    containsUnmetered "unmetered pricing" = true ∧
    parse_bandwidth "unmetered pricing" = "" ∧
    endsWithS " unmetered" (parse_bandwidth "unmetered pricing") = false := by
  decide

theorem c4_bandwidth_priority_witness :
    reSearch bwA_at "10TB Bandwidth unmetered".toList = none ∧
    reSearch bwB_at "10TB Bandwidth unmetered".toList =
      some ⟨"10TB Bandwidth".toList, some "10".toList⟩ ∧
    parse_bandwidth "10TB Bandwidth unmetered" =
      bwRender "10TB Bandwidth unmetered" ⟨"10TB Bandwidth".toList, some "10".toList⟩ ∧
    parse_bandwidth "10TB Bandwidth unmetered" = "10 unmetered" :=
  ⟨by decide, by decide,
    c4_bandwidth_priority.2.1 "10TB Bandwidth unmetered"
      ⟨"10TB Bandwidth".toList, some "10".toList⟩ (by decide) (by decide),
    by decide⟩
